import Mathlib

/-!
Shallow embedding of the `db` storage engine: the varint codec
(src/varint.rs), the typed value codec (src/types.rs and the `BtreeKey`
impl in src/btree.rs), page-header parsing through `ReadableSlice`
(src/btree.rs), the pager's guard file I/O and its refcounted lock
bookkeeping (src/pager.rs), and `BTree::find` (src/btree.rs).

Machine integers are modelled as `Nat` or `Int` with explicit bounds and
`%` where wrap-around matters.  Fallible Rust code returns `Except`; a
Rust panic is modelled as `Option.none` of the embedding function.
-/

namespace Db

/-- Little-endian byte list of length `k` for value `n` (low byte first);
models Rust `to_le_bytes` on a `k`-byte unsigned integer. -/
def leBytes : Nat → Nat → List Nat
  | 0, _ => []
  | k + 1, n => n % 256 :: leBytes k (n / 256)

/-- Numeric value of a little-endian byte list; models Rust
`from_le_bytes`.  Entries are u8, hence the `% 256`. -/
def leVal : List Nat → Nat
  | [] => 0
  | b :: rest => b % 256 + 256 * leVal rest

/-! ## Varint codec (src/varint.rs) -/

/-- Embeds `varint::encode_varint`: while the value is at least `0x80`,
emit the low seven bits with the continuation bit `0x80` set and shift the
value right by seven; finally emit the remaining byte.  For a `u64` value,
`value & 0x7F` is `value % 0x80`, setting the high bit on the masked byte
is adding `0x80`, and `value >> 7` is `value / 0x80`.  The source writes
into a fixed `[u8; 10]` buffer and also returns the length; we return the
written bytes as a list, whose length is that count. -/
def encodeVarint (value : Nat) : List Nat :=
  if h : 0x80 ≤ value then
    (value % 0x80 + 0x80) :: encodeVarint (value / 0x80)
  else
    [value]
termination_by value
decreasing_by
  exact Nat.div_lt_self (lt_of_lt_of_le (by norm_num) h) (by norm_num)

/-- Embeds the `for i in 0..10` loop of `varint::decode_varint`: `fuel`
counts the remaining iterations (starting at 10, so `i + fuel = 10`
throughout), `i` is the loop index and `result` the accumulator.  The
source accumulates `result |= u64::from(byte & 0x7f) << (7 * i)`; the
accumulator only ever occupies the low `7 * i` bits, so the bitwise or
coincides with addition of the shifted chunk, which is how we write it.
A byte with the high bit clear (`byte & 0x80 == 0`, i.e. `byte % 256 <
0x80` for a u8) terminates the loop; a missing byte (`buf.get(i)` is
`None`) or ten continuation bytes yield `none`. -/
def decodeVarintLoop : Nat → List Nat → Nat → Nat → Option (Nat × Nat)
  | 0, _, _, _ => none
  | fuel + 1, buf, i, result =>
    match buf[i]? with
    | none => none
    | some byte =>
      if byte % 256 < 0x80 then
        some (result + byte % 0x80 * 2 ^ (7 * i), i + 1)
      else
        decodeVarintLoop fuel buf (i + 1) (result + byte % 0x80 * 2 ^ (7 * i))

/-- Embeds `varint::decode_varint` (src/varint.rs). -/
def decodeVarint (buf : List Nat) : Option (Nat × Nat) :=
  decodeVarintLoop 10 buf 0 0

/-! ## Pager lock bookkeeping (src/pager.rs)

`Pager` keeps a concurrent map from `PageId` to a `PageLock` holding an
`AtomicIsize` refcount.  Entries for distinct ids are fully independent
(`compute` acts on one key), so we model the bookkeeping state of one page
id: `none` means the map has no entry for the id, `some c` an entry whose
refcount is `c`.  We verify the protocol in its sequential (linearized)
semantics: each map `compute` closure and each atomic read-modify-write is
one atomic step, and steps of different guards are interleaved as complete
operations. -/

/-- The value of `isize::MAX`, at which the refcount saturates. -/
def isizeMax : Int := 9223372036854775807

/-- Embeds the effect of `Pager::get_lock` on the entry of the requested
id, together with whether a brand-new entry was inserted (`true`) or the
existing one reused (`false`).
* no entry: insert a fresh entry with refcount 1;
* entry present: `fetch_update` increments the count unless it is
  `isize::MAX` (saturation), returning the old count; if the old count was
  negative the entry is mid-teardown and a brand-new entry with refcount 1
  is inserted over it, otherwise the existing lock is reused (`Abort`). -/
def getLockFull (entry : Option Int) : Option Int × Bool :=
  match entry with
  | none => (some 1, true)
  | some count =>
    if count < 0 then
      (some 1, true)
    else if count = isizeMax then
      (some count, false)
    else
      (some (count + 1), false)

/-- The entry state after `Pager::get_lock`. -/
def getLock (entry : Option Int) : Option Int :=
  (getLockFull entry).1

/-- Embeds `try_gc` (guard drop) acting on the entry of the dropped
guard's id: `fetch_update` decrements the count unless it is `isize::MAX`
(saturation), returning `Ok(old)` on success; if the old count was exactly
1 the dropping thread attempts `compare_exchange(0, isize::MIN)` — in the
linearized semantics the count is still the 0 it just wrote, so the swap
succeeds and the closure removes the entry (`Operation::Remove`);
otherwise the entry is left alone (`Operation::Abort`).  The source marks
the no-entry case `unreachable!` (the dropping guard still holds a
reference); we leave the absent state unchanged there. -/
def tryGc (entry : Option Int) : Option Int :=
  match entry with
  | none => none
  | some count =>
    if count = isizeMax then
      some count
    else if count = 1 then
      none
    else
      some (count - 1)

/-- One acquire (a `read_page`/`write_page` call reaching `get_lock`) or
one release (the returned guard dropping, reaching `try_gc`) on the id. -/
inductive PageOp where
  | acquire
  | release
deriving DecidableEq, Repr

/-- Effect of one operation on the id's entry. -/
def applyOp (entry : Option Int) : PageOp → Option Int
  | .acquire => getLock entry
  | .release => tryGc entry

/-- Effect of a sequence of interleaved operations on the id's entry. -/
def applyOps (ops : List PageOp) (entry : Option Int) : Option Int :=
  ops.foldl applyOp entry

/-- Running balance after a sequence of operations, starting from `bal`
currently-held guards. -/
def finalBal : Int → List PageOp → Int
  | bal, [] => bal
  | bal, .acquire :: t => finalBal (bal + 1) t
  | bal, .release :: t => finalBal (bal - 1) t

/-- A sequence is well formed from `bal` held guards when no release
occurs without a matching held guard (each guard is released at most
once, after its acquire). -/
def okFrom : Int → List PageOp → Bool
  | _, [] => true
  | bal, .acquire :: t => okFrom (bal + 1) t
  | bal, .release :: t => decide (1 ≤ bal) && okFrom (bal - 1) t

/-- Largest number of simultaneously held guards along the sequence. -/
def peak : Int → List PageOp → Int
  | bal, [] => bal
  | bal, .acquire :: t => max (bal + 1) (peak (bal + 1) t)
  | bal, .release :: t => max bal (peak (bal - 1) t)

/-! ## Typed values (src/types.rs) -/

/-- Embeds `Type` from src/types.rs (`Type` is a Lean keyword, so the
Lean name is `Ty`). -/
inductive Ty where
  | blob
  | string
  | u64
  | u32
  | i64
  | i32
  | f32
  | f64
deriving DecidableEq, Repr

/-- Embeds `Value` from src/types.rs.  Byte slices and strings are byte
lists (a `&str` is its UTF-8 bytes); the float variants carry the raw
IEEE-754 bit pattern, which is all the codec ever touches; the signed
variants carry a mathematical integer in the `i64`/`i32` range. -/
inductive Value where
  | ownedBytes (bs : List Nat)
  | ownedString (s : List Nat)
  | bytes (bs : List Nat)
  | string (s : List Nat)
  | overflowedBytes (id : Nat)
  | overflowedString (id : Nat)
  | u64 (n : Nat)
  | u32 (n : Nat)
  | i64 (n : Int)
  | i32 (n : Int)
  | f32 (bits : Nat)
  | f64 (bits : Nat)
deriving DecidableEq, Repr

/-- Is `b` a UTF-8 continuation byte (`0x80..=0xBF`)? -/
def utf8Cont (b : Nat) : Bool :=
  decide (0x80 ≤ b) && decide (b ≤ 0xBF)

/-- Well-formedness of a UTF-8 byte sequence, modelling the documented
behavior of `str::from_utf8` (std library, external to this repository):
exactly the RFC 3629 well-formed sequences are accepted. -/
def validUtf8 : List Nat → Bool
  | [] => true
  | b :: rest =>
    if b < 0x80 then
      validUtf8 rest
    else if 0xC2 ≤ b ∧ b ≤ 0xDF then
      match rest with
      | c1 :: rest1 => utf8Cont c1 && validUtf8 rest1
      | [] => false
    else if b = 0xE0 then
      match rest with
      | c1 :: c2 :: rest2 =>
        (decide (0xA0 ≤ c1) && decide (c1 ≤ 0xBF)) && utf8Cont c2 && validUtf8 rest2
      | _ => false
    else if (0xE1 ≤ b ∧ b ≤ 0xEC) ∨ b = 0xEE ∨ b = 0xEF then
      match rest with
      | c1 :: c2 :: rest2 => utf8Cont c1 && utf8Cont c2 && validUtf8 rest2
      | _ => false
    else if b = 0xED then
      match rest with
      | c1 :: c2 :: rest2 =>
        (decide (0x80 ≤ c1) && decide (c1 ≤ 0x9F)) && utf8Cont c2 && validUtf8 rest2
      | _ => false
    else if b = 0xF0 then
      match rest with
      | c1 :: c2 :: c3 :: rest3 =>
        (decide (0x90 ≤ c1) && decide (c1 ≤ 0xBF)) && utf8Cont c2 && utf8Cont c3 &&
          validUtf8 rest3
      | _ => false
    else if 0xF1 ≤ b ∧ b ≤ 0xF3 then
      match rest with
      | c1 :: c2 :: c3 :: rest3 =>
        utf8Cont c1 && utf8Cont c2 && utf8Cont c3 && validUtf8 rest3
      | _ => false
    else if b = 0xF4 then
      match rest with
      | c1 :: c2 :: c3 :: rest3 =>
        (decide (0x80 ≤ c1) && decide (c1 ≤ 0x8F)) && utf8Cont c2 && utf8Cont c3 &&
          validUtf8 rest3
      | _ => false
    else false

/-! ## Value codec (`BtreeKey` impl in src/btree.rs)

`write_to_buf` takes `&mut Vec<u8>` and uses `<[u8]>::copy_from_slice`,
which panics unless source and destination have equal length and
otherwise overwrites the destination in place.  A panic is `none`. -/

/-- Models `<[u8]>::copy_from_slice` (std library) writing `src` over the
whole slice `dst`: panics (`none`) unless the lengths match, otherwise
the destination's contents become `src`. -/
def copyFromSlice (dst src : List Nat) : Option (List Nat) :=
  if src.length = dst.length then some src else none

/-- Two's-complement little-endian bytes of an integer in `k`-byte width;
models `iN::to_le_bytes` / `fN::to_le_bytes` via the bit pattern. -/
def leBytesInt (k : Nat) (n : Int) : List Nat :=
  leBytes k (n % (2 ^ (8 * k))).toNat

/-- The shared body of the `Bytes` and `String` arms of `write_to_buf`:
`buf.copy_from_slice(&len)` with the 8-byte little-endian length, then
`buf.copy_from_slice(bytes)` — both on the WHOLE vector, so the second
copy overwrites the first and each panics on a length mismatch. -/
def writeBytesPayload (bs buf : List Nat) : Option (List Nat) := do
  let b1 ← copyFromSlice buf (leBytes 8 bs.length)
  copyFromSlice b1 bs

/-- Embeds `BtreeKey::write_to_buf` for `Value` (src/btree.rs).  Every
arm calls `buf.copy_from_slice(..)` on the whole vector — there is no
appending.  The `Owned` arms delegate to the borrowed `Bytes`/`String`
arms (inlined here as `writeBytesPayload`), and the `Overflowed` arms
are `todo!()`, i.e. a panic. -/
def writeToBuf (v : Value) (buf : List Nat) : Option (List Nat) :=
  match v with
  | .ownedBytes bs => writeBytesPayload bs buf
  | .ownedString s => writeBytesPayload s buf
  | .bytes bs => writeBytesPayload bs buf
  | .string s => writeBytesPayload s buf
  | .overflowedBytes _ => none
  | .overflowedString _ => none
  | .u64 n => copyFromSlice buf (leBytes 8 n)
  | .u32 n => copyFromSlice buf (leBytes 4 n)
  | .i64 n => copyFromSlice buf (leBytesInt 8 n)
  | .i32 n => copyFromSlice buf (leBytesInt 4 n)
  | .f32 bits => copyFromSlice buf (leBytes 4 bits)
  | .f64 bits => copyFromSlice buf (leBytes 8 bits)

/-- Signed value of a little-endian two's-complement byte list of width
`k`; models `iN::from_le_bytes`. -/
def leValInt (k : Nat) (bs : List Nat) : Int :=
  if leVal bs < 2 ^ (8 * k - 1) then
    (leVal bs : Int)
  else
    (leVal bs : Int) - 2 ^ (8 * k)

/-- Embeds `BtreeKey::read_from_buf` (src/btree.rs).  The source returns
a bare `(Value, usize)` — it has no error channel at all.  It panics
(`none`) when the buffer is shorter than the fixed width it slices
(`buf[..8]` etc.), when the declared Blob/String length exceeds the
remaining buffer (`buf[8..8 + len]`), and, for `String`, when the payload
is not valid UTF-8 (`str::from_utf8(blob).unwrap()`). -/
def readFromBuf (buf : List Nat) (typ : Ty) : Option (Value × Nat) :=
  match typ with
  | .blob =>
    if 8 ≤ buf.length then
      let len := leVal (buf.take 8)
      if 8 + len ≤ buf.length then
        some (.bytes ((buf.drop 8).take len), len + 8)
      else none
    else none
  | .string =>
    if 8 ≤ buf.length then
      let len := leVal (buf.take 8)
      if 8 + len ≤ buf.length then
        let blob := (buf.drop 8).take len
        if validUtf8 blob then some (.string blob, len + 8) else none
      else none
    else none
  | .u64 =>
    if 8 ≤ buf.length then some (.u64 (leVal (buf.take 8)), 8) else none
  | .u32 =>
    if 4 ≤ buf.length then some (.u32 (leVal (buf.take 4)), 4) else none
  | .i64 =>
    if 8 ≤ buf.length then some (.i64 (leValInt 8 (buf.take 8)), 8) else none
  | .i32 =>
    if 4 ≤ buf.length then some (.i32 (leValInt 4 (buf.take 4)), 4) else none
  | .f64 =>
    if 8 ≤ buf.length then some (.f64 (leVal (buf.take 8)), 8) else none
  | .f32 =>
    if 4 ≤ buf.length then some (.f32 (leVal (buf.take 4)), 4) else none

/-! ## Errors

The source uses `std::io::Error` everywhere; these are the distinct error
situations it constructs.  There is no structural-corruption variant
anywhere in the source. -/

/-- The `std::io::Error` values the source can produce. -/
inductive DbError where
  /-- `ErrorKind::Unsupported`, "Buf len should be = page size!". -/
  | sizeMismatch
  /-- `ErrorKind::UnexpectedEof` from `read_exact`. -/
  | eof
  /-- `Error::other("Invalid table kind")` from `PageType::parse`. -/
  | invalidTableKind
deriving DecidableEq, Repr

/-! ## Page header parsing (src/btree.rs) -/

/-- Embeds `PageType` (src/btree.rs). -/
inductive PageType where
  | interiorIndex
  | interiorTable
  | leafIndex
  | leafTable
deriving DecidableEq, Repr

/-- Embeds `PageType::parse`: tags 0–3, anything else is an error. -/
def PageType.parse (n : Nat) : Except DbError PageType :=
  match n with
  | 0 => .ok .interiorIndex
  | 1 => .ok .interiorTable
  | 2 => .ok .leafIndex
  | 3 => .ok .leafTable
  | _ => .error .invalidTableKind

/-- Embeds `ReadableSlice` (src/btree.rs): a borrowed byte slice plus a
cursor. -/
structure ReadableSlice where
  data : List Nat
  pos : Nat
deriving DecidableEq, Repr

/-- Embeds `<ReadableSlice as Read>::read` filling a caller buffer of
length `n`: at or past the end it reads 0 bytes; otherwise it copies
`amt = min(available, n)` bytes and advances the cursor by `amt` — but the
source copies them from `&self.0[..amt]`, the START of the slice, not
from the cursor position, so the bytes returned are always the first
`amt` bytes of the slice. -/
def rsRead (s : ReadableSlice) (n : Nat) : ReadableSlice × List Nat :=
  if s.data.length ≤ s.pos then
    (s, [])
  else
    let available := s.data.length - s.pos
    let amt := min available n
    (⟨s.data, s.pos + amt⟩, s.data.take amt)

/-- Models `std::io::Read::read_exact` (std library) on a
`ReadableSlice`: repeatedly call `read` on the unfilled remainder until
the request is filled, failing with `UnexpectedEof` if a call returns 0
bytes.  `fuel` counts remaining iterations; every productive iteration
returns at least one byte, so `fuel = want` at the top level suffices and
the fuel-exhausted branch is unreachable. -/
def rsReadExactGo : Nat → ReadableSlice → Nat → Except DbError (ReadableSlice × List Nat)
  | _, s, 0 => .ok (s, [])
  | 0, _, _ + 1 => .error .eof
  | fuel + 1, s, want + 1 =>
    let p := rsRead s (want + 1)
    if p.2.length = 0 then
      .error .eof
    else
      match rsReadExactGo fuel p.1 (want + 1 - p.2.length) with
      | .ok q => .ok (q.1, p.2 ++ q.2)
      | .error e => .error e

/-- `read_exact` for `n` bytes on a `ReadableSlice`. -/
def rsReadExact (s : ReadableSlice) (n : Nat) : Except DbError (ReadableSlice × List Nat) :=
  rsReadExactGo n s n

/-- Models `byteorder::ReadBytesExt::read_u8`: `read_exact` of one byte. -/
def readU8 (s : ReadableSlice) : Except DbError (ReadableSlice × Nat) := do
  let (s1, bs) ← rsReadExact s 1
  .ok (s1, leVal bs)

/-- Models `byteorder::ReadBytesExt::read_u16::<LittleEndian>`:
`read_exact` of two bytes, combined little-endian. -/
def readU16LE (s : ReadableSlice) : Except DbError (ReadableSlice × Nat) := do
  let (s1, bs) ← rsReadExact s 2
  .ok (s1, leVal bs)

/-- Embeds `PageHeader` (src/btree.rs). -/
structure PageHeader where
  pageType : PageType
  freeblockStart : Nat
  cellCount : Nat
  cellContentStart : Nat
  totalFreeBytes : Nat
deriving DecidableEq, Repr

/-- Embeds `PageHeader::parse` (src/btree.rs): wrap the page bytes in a
`ReadableSlice`, read one u8 (the page type) and four little-endian u16
fields in order. -/
def PageHeader.parse (bytes : List Nat) : Except DbError PageHeader := do
  let slice := ReadableSlice.mk bytes 0
  let (slice, tag) ← readU8 slice
  let pageType ← PageType.parse tag
  let (slice, freeblockStart) ← readU16LE slice
  let (slice, cellCount) ← readU16LE slice
  let (slice, cellContentStart) ← readU16LE slice
  let (_slice, totalFreeBytes) ← readU16LE slice
  .ok ⟨pageType, freeblockStart, cellCount, cellContentStart, totalFreeBytes⟩

/-! ## Pager guard file I/O (src/pager.rs) -/

/-- The pager fields relevant to a guard's file I/O. -/
structure PagerS where
  pageSize : Nat
deriving DecidableEq, Repr

/-- A model of an open `std::fs::File`: its byte contents, the current
seek position, and a fault-injection flag making `seek` calls fail (an
I/O error from the operating system). -/
structure ModelFile where
  content : List Nat
  pos : Nat
  seekErr : Bool
deriving DecidableEq, Repr

/-- Models `File::seek(SeekFrom::Start(target))`: on success the position
becomes `target`; on an injected fault it fails and the position is
unchanged.  The return value is the `Result` the source DISCARDS. -/
def fileSeek (f : ModelFile) (target : Nat) : Except DbError Unit × ModelFile :=
  if f.seekErr then
    (.error .eof, f)
  else
    (.ok (), { f with pos := target })

/-- Models `File::read_exact` for `n` bytes at the current position:
fails with `UnexpectedEof` when fewer than `n` bytes remain. -/
def readExactFile (f : ModelFile) (n : Nat) : Except DbError (List Nat × ModelFile) :=
  if f.pos + n ≤ f.content.length then
    .ok ((f.content.drop f.pos).take n, { f with pos := f.pos + n })
  else
    .error .eof

/-- Models `File::write_all` at the current position, zero-filling any
gap past end of file. -/
def writeAllFile (f : ModelFile) (bs : List Nat) : Except DbError ModelFile :=
  .ok { f with
    content :=
      f.content.take f.pos ++ List.replicate (f.pos - f.content.length) 0 ++ bs ++
        f.content.drop (f.pos + bs.length),
    pos := f.pos + bs.length }

/-- Embeds `PageRead::read_into` (and the identical
`PageWrite::read_into`, src/pager.rs) for a guard on page `id`: reject a
buffer whose length is not `page_size` before touching the file; then
seek to `page_size * id` — the source drops the seek `Result` on the
floor (no `?`), so a failed seek is ignored and the read proceeds at the
stale position — and `read_exact` one page.  The multiplication is u64
arithmetic, hence the `% 2 ^ 64`. -/
def pageReadReadInto (pager : PagerS) (id : Nat) (bufLen : Nat) (f : ModelFile) :
    Except DbError (List Nat × ModelFile) :=
  if bufLen ≠ pager.pageSize then
    .error .sizeMismatch
  else
    let p := fileSeek f (pager.pageSize * id % 2 ^ 64)
    readExactFile p.2 pager.pageSize

/-- Embeds `PageWrite::write` (src/pager.rs): same length check, same
dropped seek `Result`, then `write_all` of the buffer. -/
def pageWriteWrite (pager : PagerS) (id : Nat) (buf : List Nat) (f : ModelFile) :
    Except DbError ModelFile :=
  if buf.length ≠ pager.pageSize then
    .error .sizeMismatch
  else
    let p := fileSeek f (pager.pageSize * id % 2 ^ 64)
    writeAllFile p.2 buf

/-! ## BTree::find (src/btree.rs) -/

/-- Embeds `BTree` (src/btree.rs). -/
structure BTreeS where
  startPage : Nat
  pager : PagerS
deriving DecidableEq, Repr

/-- Embeds the `loop` body of `BTree::find`: acquire a read guard for
`pageId` (no effect on the returned value in the linearized semantics),
`read_into` a `page_size`-byte buffer, parse the header — and loop.  The
source never updates `page_id`, never examines a cell or the `key`, and
the loop has no exit other than a `?` error, so the only possible
outcomes are an error or non-termination.  `fuel` bounds the number of
iterations we unfold; `none` means the loop is still running when the
fuel runs out. -/
def findLoop : Nat → PagerS → Nat → List Nat → ModelFile →
    Option (Except DbError (Option (Nat × Nat)))
  | 0, _, _, _, _ => none
  | fuel + 1, pager, pageId, key, file =>
    match pageReadReadInto pager pageId pager.pageSize file with
    | .error e => some (.error e)
    | .ok (buf, file1) =>
      match PageHeader.parse buf with
      | .error e => some (.error e)
      | .ok _header => findLoop fuel pager pageId key file1

/-- Embeds `BTree::find` (src/btree.rs): start at `start_page` with a
freshly opened file (position 0, no injected fault) and run the loop.
The `vec![0; page_size]` buffer always has exactly `page_size` bytes,
which is what `findLoop` passes to `read_into`. -/
def BTreeS.find (fuel : Nat) (t : BTreeS) (key : List Nat) (content : List Nat) :
    Option (Except DbError (Option (Nat × Nat))) :=
  findLoop fuel t.pager t.startPage key ⟨content, 0, false⟩

/-! ## Per-page reader/writer locking (src/pager.rs, C9)

`read_page`/`write_page` call `get_lock(id)` for the per-id `RwLock` and
then `lock.read()` / `lock.write()`.  The map keys locks by page id, so
distinct ids get distinct locks.  We model the lock state per page id
with the documented semantics of `std::sync::RwLock` (std library,
external): any number of readers, or one writer, may hold it; an
acquisition can complete exactly when no conflicting holder exists. -/

/-- Hold state of one page's `RwLock`. -/
structure LockState where
  readers : Nat
  writer : Bool
deriving DecidableEq, Repr

/-- Lock state of every page id. -/
def LockMap := Nat → LockState

/-- `lock.read()` can complete exactly when no writer holds the lock. -/
def canAcquireRead (s : LockState) : Bool :=
  !s.writer

/-- `lock.write()` can complete exactly when nobody holds the lock. -/
def canAcquireWrite (s : LockState) : Bool :=
  !s.writer && s.readers = 0

/-- State change when a `read_page(p)` acquisition completes. -/
def acquireRead (m : LockMap) (p : Nat) : LockMap :=
  fun q => if q = p then ⟨(m p).readers + 1, (m p).writer⟩ else m q

/-- State change when a `write_page(p)` acquisition completes. -/
def acquireWrite (m : LockMap) (p : Nat) : LockMap :=
  fun q => if q = p then ⟨(m p).readers, true⟩ else m q

/-- State change when a `PageRead` guard on `p` drops. -/
def releaseRead (m : LockMap) (p : Nat) : LockMap :=
  fun q => if q = p then ⟨(m p).readers - 1, (m p).writer⟩ else m q

/-- State change when a `PageWrite` guard on `p` drops. -/
def releaseWrite (m : LockMap) (p : Nat) : LockMap :=
  fun q => if q = p then ⟨(m p).readers, false⟩ else m q

/-! ## Varint lemmas -/

lemma encodeVarint_of_lt {v : Nat} (h : v < 0x80) : encodeVarint v = [v] := by
  rw [encodeVarint, dif_neg (by omega)]

lemma encodeVarint_of_ge {v : Nat} (h : 0x80 ≤ v) :
    encodeVarint v = (v % 0x80 + 0x80) :: encodeVarint (v / 0x80) := by
  rw [encodeVarint, dif_pos h]

lemma encodeVarint_ne_nil (v : Nat) : encodeVarint v ≠ [] := by
  by_cases h : 0x80 ≤ v
  · rw [encodeVarint_of_ge h]; simp
  · rw [encodeVarint_of_lt (by omega)]; simp

lemma encodeVarint_length_le : ∀ k v, v < 2 ^ (7 * (k + 1)) →
    (encodeVarint v).length ≤ k + 1 := by
  intro k
  induction k with
  | zero =>
    intro v hv
    rw [encodeVarint_of_lt (by norm_num at hv ⊢; omega)]
    simp
  | succ k ih =>
    intro v hv
    by_cases h : 0x80 ≤ v
    · rw [encodeVarint_of_ge h]
      have hdiv : v / 0x80 < 2 ^ (7 * (k + 1)) := by
        rw [Nat.div_lt_iff_lt_mul (by norm_num)]
        calc v < 2 ^ (7 * (k + 2)) := hv
          _ = 2 ^ (7 * (k + 1)) * 0x80 := by ring
      have := ih (v / 0x80) hdiv
      simpa using this
    · rw [encodeVarint_of_lt (by omega)]
      simp

lemma encodeVarint_bytes (v : Nat) :
    (∀ b ∈ (encodeVarint v).dropLast, 0x80 ≤ b ∧ b < 256) ∧
    (∀ b, (encodeVarint v).getLast? = some b → b < 0x80) := by
  induction v using Nat.strong_induction_on with
  | _ v ih =>
    by_cases h : 0x80 ≤ v
    · have hlt : v / 0x80 < v :=
        Nat.div_lt_self (lt_of_lt_of_le (by norm_num) h) (by norm_num)
      obtain ⟨ihdrop, ihlast⟩ := ih (v / 0x80) hlt
      rw [encodeVarint_of_ge h]
      rcases henc : encodeVarint (v / 0x80) with _ | ⟨c, t⟩
      · exact absurd henc (encodeVarint_ne_nil _)
      · rw [henc] at ihdrop ihlast
        constructor
        · intro b hb
          rw [List.dropLast_cons₂, List.mem_cons] at hb
          rcases hb with rfl | hb
          · have : v % 0x80 < 0x80 := Nat.mod_lt v (by norm_num)
            omega
          · exact ihdrop b hb
        · intro b hb
          rw [List.getLast?_cons_cons] at hb
          exact ihlast b hb
    · rw [encodeVarint_of_lt (by omega)]
      refine ⟨by simp, ?_⟩
      intro b hb
      simp at hb
      omega

lemma decodeVarintLoop_encode :
    ∀ v pre g i result, pre.length = i → i + (encodeVarint v).length ≤ 10 →
      result < 2 ^ (7 * i) →
      decodeVarintLoop (10 - i) (pre ++ (encodeVarint v ++ g)) i result
        = some (result + v * 2 ^ (7 * i), i + (encodeVarint v).length) := by
  intro v
  induction v using Nat.strong_induction_on with
  | _ v ih =>
    intro pre g i result hpre hlen hres
    by_cases h : 0x80 ≤ v
    · -- continuation byte, then the encoding of `v / 0x80`
      have hlt : v / 0x80 < v := Nat.div_lt_self (by omega) (by norm_num)
      rw [encodeVarint_of_ge h] at hlen ⊢
      have hlen' : i + 1 + (encodeVarint (v / 0x80)).length ≤ 10 := by
        simp only [List.length_cons] at hlen
        omega
      obtain ⟨fuel, hfuel⟩ : ∃ f, 10 - i = f + 1 := ⟨9 - i, by omega⟩
      rw [hfuel]
      have hbyte :
          (pre ++ (((v % 0x80 + 0x80) :: encodeVarint (v / 0x80)) ++ g))[i]?
            = some (v % 0x80 + 0x80) := by
        rw [List.getElem?_append_right (by omega)]
        simp [hpre]
      have hmod : v % 0x80 < 0x80 := Nat.mod_lt v (by norm_num)
      have hnotlt : ¬ (v % 0x80 + 0x80) % 256 < 0x80 := by omega
      simp only [decodeVarintLoop, hbyte, hnotlt, if_false]
      have hb7 : (v % 0x80 + 0x80) % 0x80 = v % 0x80 := by omega
      have hfueleq : fuel = 10 - (i + 1) := by omega
      have hlist :
          pre ++ (((v % 0x80 + 0x80) :: encodeVarint (v / 0x80)) ++ g)
            = (pre ++ [v % 0x80 + 0x80]) ++ (encodeVarint (v / 0x80) ++ g) := by
        simp
      have hres' : result + v % 0x80 * 2 ^ (7 * i) < 2 ^ (7 * (i + 1)) := by
        have hpow : 2 ^ (7 * (i + 1)) = 2 ^ (7 * i) * 0x80 := by ring
        have hmul : v % 0x80 * 2 ^ (7 * i) ≤ 127 * 2 ^ (7 * i) :=
          Nat.mul_le_mul_right _ (by omega)
        rw [hpow]
        omega
      have ihres := ih (v / 0x80) hlt (pre ++ [v % 0x80 + 0x80]) g (i + 1)
        (result + v % 0x80 * 2 ^ (7 * i)) (by simp [hpre]) hlen' hres'
      rw [hb7, hfueleq, hlist, ihres]
      have hval : result + v % 0x80 * 2 ^ (7 * i) + v / 0x80 * 2 ^ (7 * (i + 1))
          = result + v * 2 ^ (7 * i) := by
        have hpow : 2 ^ (7 * (i + 1)) = 2 ^ (7 * i) * 0x80 := by ring
        rw [hpow]
        conv_rhs => rw [← Nat.mod_add_div v 0x80]
        ring
      simp only [hval, List.length_cons]
      exact congrArg some (congrArg _ (by omega))
    · -- terminal byte
      have hv : v < 0x80 := by omega
      rw [encodeVarint_of_lt hv] at hlen ⊢
      simp only [List.length_cons, List.length_nil] at hlen
      obtain ⟨fuel, hfuel⟩ : ∃ f, 10 - i = f + 1 := ⟨9 - i, by omega⟩
      rw [hfuel]
      have hbyte : (pre ++ ([v] ++ g))[i]? = some v := by
        rw [List.getElem?_append_right (by omega)]
        simp [hpre]
      have hlt256 : v % 256 < 0x80 := by omega
      simp only [decodeVarintLoop, hbyte, hlt256, if_true, List.length_cons,
        List.length_nil]
      have hv128 : v % 0x80 = v := Nat.mod_eq_of_lt hv
      rw [hv128]

/-- C8: for every u64 value `v`, `encode_varint` yields between 1 and 10
bytes in little-endian base-128 form — value 0 encodes as the single zero
byte, every byte except the last carries the continuation high bit — and
`decode_varint` applied to that encoding, with arbitrary trailing bytes
appended, returns `Some((v, len))` where `len` is exactly the encoded
length. -/
theorem varint_roundtrip (v : Nat) (hv : v < 2 ^ 64) :
    (∀ g : List Nat,
      decodeVarint (encodeVarint v ++ g) = some (v, (encodeVarint v).length)) ∧
    1 ≤ (encodeVarint v).length ∧ (encodeVarint v).length ≤ 10 ∧
    encodeVarint 0 = [0] ∧
    (∀ b ∈ (encodeVarint v).dropLast, 0x80 ≤ b ∧ b < 256) ∧
    (∀ b, (encodeVarint v).getLast? = some b → b < 0x80) := by
  have hlen : (encodeVarint v).length ≤ 10 := by
    have := encodeVarint_length_le 9 v (lt_of_lt_of_le hv (by norm_num))
    simpa using this
  refine ⟨?_, ?_, hlen, encodeVarint_of_lt (by norm_num), (encodeVarint_bytes v).1,
    (encodeVarint_bytes v).2⟩
  · intro g
    have := decodeVarintLoop_encode v [] g 0 0 rfl (by simpa using hlen) (by norm_num)
    simpa [decodeVarint] using this
  · have := encodeVarint_ne_nil v
    cases henc : encodeVarint v with
    | nil => exact absurd henc this
    | cons a t => simp

/-- Witness for C8 at the concrete input `v = 300` with trailing garbage
byte 171. -/
theorem varint_roundtrip_w :
    300 < 2 ^ 64 ∧
      decodeVarint (encodeVarint 300 ++ [171]) = some (300, (encodeVarint 300).length) :=
  ⟨by norm_num, (varint_roundtrip 300 (by norm_num)).1 [171]⟩

/-! ## Lock bookkeeping lemmas (C1, C10) -/

lemma peak_ge (bal : Int) (ops : List PageOp) : bal ≤ peak bal ops := by
  induction ops generalizing bal with
  | nil => simp [peak]
  | cons op t ih =>
    cases op with
    | acquire =>
      calc bal ≤ bal + 1 := by omega
        _ ≤ max (bal + 1) (peak (bal + 1) t) := le_max_left _ _
        _ = peak bal (.acquire :: t) := rfl
    | release => exact le_max_of_le_left le_rfl

/-- Invariant of the sequential protocol: starting from `bal ≥ 0` held
guards (entry absent when `bal = 0`, else refcount `bal`), a well-formed
sequence whose peak stays below `isize::MAX` ends with the entry absent
when the final balance is 0, else with refcount the final balance. -/
lemma applyOps_balanced (ops : List PageOp) :
    ∀ bal : Int, 0 ≤ bal → okFrom bal ops = true → peak bal ops < isizeMax →
      applyOps ops (if bal = 0 then none else some bal)
        = (if finalBal bal ops = 0 then none else some (finalBal bal ops)) := by
  induction ops with
  | nil => intro bal _ _ _; simp [applyOps, finalBal]
  | cons op t ih =>
    intro bal hbal hok hpeak
    cases op with
    | acquire =>
      have hstep : applyOp (if bal = 0 then none else some bal) .acquire
          = (if bal + 1 = 0 then none else some (bal + 1)) := by
        have hb1 : bal + 1 < isizeMax := by
          have h1 : bal + 1 ≤ max (bal + 1) (peak (bal + 1) t) := le_max_left _ _
          have h2 : max (bal + 1) (peak (bal + 1) t) = peak bal (.acquire :: t) := rfl
          omega
        by_cases hz : bal = 0
        · simp [hz, applyOp, getLock, getLockFull]
        · have hpos : 0 < bal := by omega
          simp only [if_neg hz, applyOp, getLock, getLockFull]
          rw [if_neg (by omega), if_neg (by omega), if_neg (by omega)]
      have hok' : okFrom (bal + 1) t = true := by simpa [okFrom] using hok
      have hpeak' : peak (bal + 1) t < isizeMax := by
        have : peak (bal + 1) t ≤ peak bal (.acquire :: t) := le_max_right _ _
        omega
      calc applyOps (.acquire :: t) (if bal = 0 then none else some bal)
          = applyOps t (applyOp (if bal = 0 then none else some bal) .acquire) := rfl
        _ = applyOps t (if bal + 1 = 0 then none else some (bal + 1)) := by rw [hstep]
        _ = (if finalBal (bal + 1) t = 0 then none else some (finalBal (bal + 1) t)) :=
            ih (bal + 1) (by omega) hok' hpeak'
        _ = (if finalBal bal (.acquire :: t) = 0 then none
              else some (finalBal bal (.acquire :: t))) := rfl
    | release =>
      have hge : 1 ≤ bal ∧ okFrom (bal - 1) t = true := by
        simpa [okFrom] using hok
      have hbmax : bal < isizeMax := by
        have h1 : bal ≤ max bal (peak (bal - 1) t) := le_max_left _ _
        have h2 : max bal (peak (bal - 1) t) = peak bal (.release :: t) := rfl
        omega
      have hstep : applyOp (if bal = 0 then none else some bal) .release
          = (if bal - 1 = 0 then none else some (bal - 1)) := by
        rw [if_neg (by omega)]
        by_cases h1 : bal = 1
        · simp [h1, applyOp, tryGc, isizeMax]
        · simp only [applyOp, tryGc]
          rw [if_neg (by omega), if_neg h1, if_neg (by omega)]
      have hpeak' : peak (bal - 1) t < isizeMax := by
        have : peak (bal - 1) t ≤ peak bal (.release :: t) := le_max_right _ _
        omega
      calc applyOps (.release :: t) (if bal = 0 then none else some bal)
          = applyOps t (applyOp (if bal = 0 then none else some bal) .release) := rfl
        _ = applyOps t (if bal - 1 = 0 then none else some (bal - 1)) := by rw [hstep]
        _ = (if finalBal (bal - 1) t = 0 then none else some (finalBal (bal - 1) t)) :=
            ih (bal - 1) (by omega) hge.2 hpeak'
        _ = (if finalBal bal (.release :: t) = 0 then none
              else some (finalBal bal (.release :: t))) := rfl

lemma applyOps_append (xs ys : List PageOp) (e : Option Int) :
    applyOps (xs ++ ys) e = applyOps ys (applyOps xs e) :=
  List.foldl_append ..

lemma applyOps_cons (op : PageOp) (t : List PageOp) (e : Option Int) :
    applyOps (op :: t) e = applyOps t (applyOp e op) :=
  rfl

lemma getLock_succ {bal : Int} (h0 : 0 ≤ bal) (hmax : bal < isizeMax) :
    getLock (some bal) = some (bal + 1) := by
  simp only [getLock, getLockFull]
  rw [if_neg (by omega), if_neg (by omega)]

lemma applyOps_acquireN : ∀ (n : Nat) (bal : Int), 0 ≤ bal → bal + n ≤ isizeMax →
    applyOps (List.replicate n .acquire) (some bal) = some (bal + n) := by
  intro n
  induction n with
  | zero => intro bal _ _; simp [applyOps]
  | succ n ih =>
    intro bal h1 h2
    rw [List.replicate_succ]
    have hstep : applyOps (.acquire :: List.replicate n .acquire) (some bal)
        = applyOps (List.replicate n .acquire) (getLock (some bal)) := rfl
    rw [hstep, getLock_succ h1 (by push_cast at h2; omega)]
    have := ih (bal + 1) (by omega) (by push_cast at h2 ⊢; omega)
    rw [this]
    congr 1
    push_cast
    ring

lemma applyOps_relN_sat (n : Nat) :
    applyOps (List.replicate n .release) (some isizeMax) = some isizeMax := by
  induction n with
  | zero => simp [applyOps]
  | succ n ih =>
    rw [List.replicate_succ]
    have hstep : applyOps (.release :: List.replicate n .release) (some isizeMax)
        = applyOps (List.replicate n .release) (tryGc (some isizeMax)) := rfl
    rw [hstep]
    have hgc : tryGc (some isizeMax) = some isizeMax := by simp [tryGc]
    rw [hgc, ih]

lemma okFrom_append (xs ys : List PageOp) : ∀ bal, okFrom bal (xs ++ ys)
    = (okFrom bal xs && okFrom (finalBal bal xs) ys) := by
  induction xs with
  | nil => intro bal; simp [okFrom, finalBal]
  | cons op t ih =>
    intro bal
    cases op <;> simp [okFrom, finalBal, ih, Bool.and_assoc]

lemma finalBal_append (xs ys : List PageOp) : ∀ bal,
    finalBal bal (xs ++ ys) = finalBal (finalBal bal xs) ys := by
  induction xs with
  | nil => intro bal; simp [finalBal]
  | cons op t ih =>
    intro bal
    cases op <;> simp [finalBal, ih]

lemma okFrom_acquireN (n : Nat) : ∀ bal, okFrom bal (List.replicate n .acquire) = true := by
  induction n with
  | zero => intro bal; simp [okFrom]
  | succ n ih => intro bal; rw [List.replicate_succ]; exact ih (bal + 1)

lemma finalBal_acquireN (n : Nat) :
    ∀ bal, finalBal bal (List.replicate n .acquire) = bal + n := by
  induction n with
  | zero => intro bal; simp [finalBal]
  | succ n ih =>
    intro bal
    rw [List.replicate_succ]
    have : finalBal bal (.acquire :: List.replicate n .acquire)
        = finalBal (bal + 1) (List.replicate n .acquire) := rfl
    rw [this, ih]
    push_cast
    ring

lemma okFrom_relN (n : Nat) : ∀ bal, (n : Int) ≤ bal →
    okFrom bal (List.replicate n .release) = true := by
  induction n with
  | zero => intro bal _; simp [okFrom]
  | succ n ih =>
    intro bal h
    rw [List.replicate_succ]
    have hstep : okFrom bal (.release :: List.replicate n .release)
        = (decide (1 ≤ bal) && okFrom (bal - 1) (List.replicate n .release)) := rfl
    rw [hstep, ih (bal - 1) (by push_cast at h ⊢; omega)]
    simp
    push_cast at h
    omega

lemma finalBal_relN (n : Nat) :
    ∀ bal, finalBal bal (List.replicate n .release) = bal - n := by
  induction n with
  | zero => intro bal; simp [finalBal]
  | succ n ih =>
    intro bal
    rw [List.replicate_succ]
    have : finalBal bal (.release :: List.replicate n .release)
        = finalBal (bal - 1) (List.replicate n .release) := rfl
    rw [this, ih]
    push_cast
    ring

/-- C1 (amended): for every finite well-formed interleaving of acquire
and release steps on one page id in which the number of simultaneously
held guards stays below `isize::MAX`, once every guard is released
(final balance 0) the bookkeeping map holds no entry for the id;
moreover a release that brings the refcount from 1 to 0 wins the swap
and removes the entry, and an acquirer that observes a negative
(mid-teardown) count obtains a freshly inserted entry with refcount 1. -/
theorem refcount_gc_invariant :
    (∀ ops : List PageOp, okFrom 0 ops = true → peak 0 ops < isizeMax →
        finalBal 0 ops = 0 → applyOps ops none = none) ∧
    tryGc (some 1) = none ∧
    (∀ c : Int, c < 0 → getLockFull (some c) = (some 1, true)) := by
  refine ⟨?_, by simp [tryGc, isizeMax], ?_⟩
  · intro ops hok hpeak hbal
    have := applyOps_balanced ops 0 le_rfl hok hpeak
    simpa [hbal] using this
  · intro c hc
    simp [getLockFull, hc]

/-- Witness for C1 at a concrete interleaving: two overlapping cycles on
one id, plus an acquirer observing the mid-teardown count `-1`. -/
theorem refcount_gc_invariant_w :
    applyOps [.acquire, .acquire, .release, .release] none = none ∧
      getLockFull (some (-1)) = (some 1, true) :=
  ⟨refcount_gc_invariant.1 [.acquire, .acquire, .release, .release] (by decide)
      (by decide) (by decide),
    refcount_gc_invariant.2.2 (-1) (by norm_num)⟩

/-- `isize::MAX` acquires followed by `isize::MAX` releases: a finite
sequence of completed acquire/release cycles (every acquire matched by a
later release, never a release without a held guard). -/
def satOps : List PageOp :=
  List.replicate 9223372036854775807 .acquire ++
    List.replicate 9223372036854775807 .release

/-- Counterexample to C1 as stated: after the finite well-formed
sequence `satOps` of completed cycles, all guards are released (balance
0), yet the map still holds an entry for the id, with its count frozen
at `isize::MAX`. -/
theorem refcount_gc_invariant_cex :
    okFrom 0 satOps = true ∧ finalBal 0 satOps = 0 ∧
      applyOps satOps none = some isizeMax := by
  have hsplit : (9223372036854775807 : Nat) = 9223372036854775806 + 1 := by norm_num
  refine ⟨?_, ?_, ?_⟩
  · rw [satOps, okFrom_append, okFrom_acquireN, finalBal_acquireN, okFrom_relN]
    · simp
    · norm_num
  · rw [satOps, finalBal_append, finalBal_acquireN, finalBal_relN]
    norm_num
  · have hacq : applyOps (List.replicate 9223372036854775807 .acquire) none
        = some isizeMax := by
      rw [hsplit, List.replicate_succ, applyOps_cons]
      have hfirst : applyOp none .acquire = some 1 := rfl
      rw [hfirst, applyOps_acquireN 9223372036854775806 1 (by norm_num)
        (by norm_num [isizeMax])]
      norm_num [isizeMax]
    rw [satOps, applyOps_append, hacq, applyOps_relN_sat]

/-- C10: once a page lock entry's refcount has reached `isize::MAX` the
count is frozen permanently: an acquisition reuses the entry without
incrementing the count, a release leaves the count unchanged (the
decrement is skipped at the saturation value), and no sequence of later
acquisitions and releases ever removes the entry from the map. -/
theorem refcount_saturation_freeze :
    getLockFull (some isizeMax) = (some isizeMax, false) ∧
    tryGc (some isizeMax) = some isizeMax ∧
    ∀ ops : List PageOp, applyOps ops (some isizeMax) = some isizeMax := by
  refine ⟨rfl, by simp [tryGc], ?_⟩
  · intro ops
    induction ops with
    | nil => rfl
    | cons op t ih =>
      rw [applyOps_cons]
      cases op with
      | acquire =>
        have hstep : applyOp (some isizeMax) .acquire = some isizeMax := rfl
        rw [hstep]
        exact ih
      | release =>
        have hstep : applyOp (some isizeMax) .release = some isizeMax := by
          simp [applyOp, tryGc]
        rw [hstep]
        exact ih

/-! ## C2: header field offsets -/

/-- C2 evaluation at the failing input: for the 9-byte buffer
`[0,1,2,3,4,5,6,7,8]`, the claim says `freeblock_start` is the
little-endian u16 at offsets 1..3 (= 513 = `leVal [1, 2]`), `cell_count`
at 3..5 (= 1027), `cell_content_start` at 5..7 (= 1541) and
`total_free_bytes` at 7..9 (= 2055).  Because `ReadableSlice::read`
copies from the start of the slice instead of its cursor position, the
code parses ALL FOUR u16 fields from bytes 0..2, yielding 256 each. -/
theorem pageHeader_parse_offsets_bug :
    PageHeader.parse [0, 1, 2, 3, 4, 5, 6, 7, 8]
      = .ok ⟨.interiorIndex, 256, 256, 256, 256⟩ ∧
    leVal [1, 2] = 513 ∧ leVal [3, 4] = 1027 ∧ (256 : Nat) ≠ 513 :=
  ⟨rfl, rfl, rfl, by norm_num⟩

/-! ## C3/C5: value codec bugs -/

/-- C3 evaluation at failing inputs: `write_to_buf` panics on an empty
buffer for `U64(7)` (`copy_from_slice` length mismatch 0 vs 8), panics
for `Bytes([1,2,3])` even on an 8-byte buffer (second copy mismatch
8 vs 3), and in the one shape that does not panic —
`Bytes` of exactly 8 bytes into an 8-byte buffer — the payload copy
overwrites the length prefix, so the buffer holds the raw bytes with no
prefix, and reading that back as a Blob panics (declared length
578437695752307201 exceeds the buffer).  The round trip claimed by the
spec never happens. -/
theorem writeToBuf_copy_bug :
    writeToBuf (.u64 7) [] = none ∧
    writeToBuf (.bytes [1, 2, 3]) [0, 0, 0, 0, 0, 0, 0, 0] = none ∧
    writeToBuf (.bytes [1, 2, 3, 4, 5, 6, 7, 8]) [0, 0, 0, 0, 0, 0, 0, 0]
      = some [1, 2, 3, 4, 5, 6, 7, 8] ∧
    readFromBuf [1, 2, 3, 4, 5, 6, 7, 8] .blob = none :=
  ⟨rfl, rfl, rfl, rfl⟩

/-- C5 evaluation at failing inputs: `read_from_buf` returns a bare
`(Value, usize)` with no error channel, and it panics — modelled as
`none` — instead of returning a DecodeError on invalid UTF-8 (payload
`[0xFF]`) or a TruncatedInput error on a length prefix (9) exceeding the
remaining buffer (0 bytes). -/
theorem readFromBuf_panic_bug :
    readFromBuf [1, 0, 0, 0, 0, 0, 0, 0, 0xFF] .string = none ∧
    validUtf8 [0xFF] = false ∧
    readFromBuf [9, 0, 0, 0, 0, 0, 0, 0] .blob = none ∧
    readFromBuf [2, 0, 0, 0, 0, 0, 0, 0, 72, 105] .string
      = some (.string [72, 105], 10) :=
  ⟨rfl, rfl, rfl, rfl⟩

/-! ## C7: guard I/O and the dropped seek result -/

/-- C7 evaluation: the buffer-length check does fail with the size
mismatch error before touching the file, and a successful call does read
exactly the one page at `page_size * id` — but when the seek fails (here
injected via `seekErr`) the source DISCARDS the seek `Result` (no `?`),
so `read_into` returns `Ok` with the bytes at the stale position 0
(page 0's bytes `[0,1,2,3]` instead of page 1's `[4,5,6,7]`), and
`write` silently overwrites page 0; the claimed propagation of seek
failures never happens. -/
theorem guard_io_seek_bug :
    pageReadReadInto ⟨4⟩ 1 3 ⟨[0, 1, 2, 3, 4, 5, 6, 7], 0, false⟩
      = .error .sizeMismatch ∧
    pageReadReadInto ⟨4⟩ 1 4 ⟨[0, 1, 2, 3, 4, 5, 6, 7], 0, false⟩
      = .ok ([4, 5, 6, 7], ⟨[0, 1, 2, 3, 4, 5, 6, 7], 8, false⟩) ∧
    pageReadReadInto ⟨4⟩ 1 4 ⟨[0, 1, 2, 3, 4, 5, 6, 7], 0, true⟩
      = .ok ([0, 1, 2, 3], ⟨[0, 1, 2, 3, 4, 5, 6, 7], 4, true⟩) ∧
    pageWriteWrite ⟨4⟩ 1 [9, 9, 9, 9] ⟨[0, 1, 2, 3, 4, 5, 6, 7], 0, true⟩
      = .ok ⟨[9, 9, 9, 9, 4, 5, 6, 7], 4, true⟩ :=
  ⟨rfl, rfl, rfl, rfl⟩

/-! ## C4/C6: BTree::find never returns -/

/-- When the page at `page_size * id` is in bounds and its bytes parse
as a header, each iteration of the `find` loop succeeds and loops again
with the SAME page id, so the loop never returns, whatever the fuel. -/
lemma findLoop_stuck (pager : PagerS) (pageId : Nat) (key content : List Nat)
    (hdr : PageHeader)
    (h1 : pager.pageSize * pageId % 2 ^ 64 + pager.pageSize ≤ content.length)
    (h2 : PageHeader.parse
        ((content.drop (pager.pageSize * pageId % 2 ^ 64)).take pager.pageSize)
      = .ok hdr) :
    ∀ (fuel pos : Nat), findLoop fuel pager pageId key ⟨content, pos, false⟩ = none := by
  intro fuel
  induction fuel with
  | zero => intro pos; rfl
  | succ fuel ih =>
    intro pos
    have h1' : pager.pageSize * pageId % 18446744073709551616 + pager.pageSize
        ≤ content.length := by
      norm_num at h1
      exact h1
    have hread : pageReadReadInto pager pageId pager.pageSize ⟨content, pos, false⟩
        = .ok ((content.drop (pager.pageSize * pageId % 2 ^ 64)).take pager.pageSize,
            ⟨content, pager.pageSize * pageId % 2 ^ 64 + pager.pageSize, false⟩) := by
      simp [pageReadReadInto, fileSeek, readExactFile, h1']
    simp only [findLoop, hread, h2]
    exact ih _

/-- A well-formed 32-byte leaf-table page for page size 32: header
(LeafTable, 3 cells, cell content from offset 26), cell pointer array
[26, 28, 30], and three cells for keys 10, 20, 30. -/
def leafPage : List Nat :=
  [3, 25, 0, 3, 0, 26, 0, 0, 0,
   26, 0, 28, 0, 30, 0,
   0, 0, 0, 0, 0, 0, 0, 0, 0, 0, 0,
   10, 0, 20, 0, 30, 0]

/-- C6 evaluation at the failing input: on a backing file holding a
single well-formed leaf-table page with cells for keys 10, 20, 30,
`find(20)` does not return `Ok(Some((page_id, offset)))` — it returns
nothing at all, for any number of loop iterations: the loop body parses
the header, never compares a cell key, never exits. -/
theorem find_leaf_lookup_bug :
    ∀ fuel : Nat, BTreeS.find fuel ⟨0, ⟨32⟩⟩ [20] leafPage = none := by
  intro fuel
  exact findLoop_stuck ⟨32⟩ 0 [20] leafPage ⟨.leafTable, 6403, 6403, 6403, 6403⟩
    (by norm_num [leafPage]) rfl fuel 0

/-- A 16-byte interior-table page for page size 16 whose single cell's
child pointer is page 0 itself — the page graph reachable from start
page 0 contains a cycle. -/
def cyclePage : List Nat :=
  [1, 11, 0, 1, 0, 14, 0, 0, 0, 14, 0, 0, 0, 0, 0, 0]

/-- C4 evaluation at the failing input: on a backing file whose page
graph has a cycle reachable from the start page, `find` neither
terminates with a StructuralCorruption error (no such error exists in
the source) nor terminates at all: every iteration re-reads the same
start page and loops, whatever the fuel.  (On an acyclic single-leaf
file, `find_leaf_lookup_bug` shows the same non-termination, refuting
the acyclic-termination half of the claim too.) -/
theorem find_cycle_bug :
    ∀ fuel : Nat, BTreeS.find fuel ⟨0, ⟨16⟩⟩ [7] cyclePage = none := by
  intro fuel
  exact findLoop_stuck ⟨16⟩ 0 [7] cyclePage ⟨.interiorTable, 2817, 2817, 2817, 2817⟩
    (by norm_num [cyclePage]) rfl fuel 0

/-! ## C9: per-page reader/writer exclusion -/

/-- C9: for a single page id any number of concurrent read guards may be
held simultaneously (after `n` read acquisitions on a writer-free page,
a further read acquisition is still enabled); a held write guard on page
`p` disables completion of every read or write acquisition on `p` until
it is released, after which both are enabled again; and any acquisition
or release on `p` leaves the lock state of every other page id `q`
untouched, so acquisitions on `q` are never delayed by activity on `p`. -/
theorem rwlock_page_exclusion :
    (∀ (m : LockMap) (p : Nat), (m p).writer = true →
      canAcquireRead (m p) = false ∧ canAcquireWrite (m p) = false) ∧
    (∀ (m : LockMap) (p : Nat), (m p).readers = 0 →
      canAcquireRead (releaseWrite m p p) = true ∧
      canAcquireWrite (releaseWrite m p p) = true) ∧
    (∀ (m : LockMap) (p q : Nat), q ≠ p →
      acquireRead m p q = m q ∧ acquireWrite m p q = m q ∧
      releaseRead m p q = m q ∧ releaseWrite m p q = m q) ∧
    (∀ (m : LockMap) (p : Nat) (n : Nat), (m p).writer = false →
      canAcquireRead (((fun s => acquireRead s p)^[n] m) p) = true ∧
      (((fun s => acquireRead s p)^[n] m) p).readers = (m p).readers + n) := by
  refine ⟨?_, ?_, ?_, ?_⟩
  · intro m p hw
    simp [canAcquireRead, canAcquireWrite, hw]
  · intro m p hr
    simp [canAcquireRead, canAcquireWrite, releaseWrite, hr]
  · intro m p q hq
    simp [acquireRead, acquireWrite, releaseRead, releaseWrite, hq]
  · intro m p n hw
    induction n generalizing m with
    | zero => simpa [canAcquireRead] using hw
    | succ n ih =>
      rw [Function.iterate_succ_apply]
      have hstep : (acquireRead m p p).writer = false := by
        simp [acquireRead, hw]
      obtain ⟨hcan, hcount⟩ := ih (acquireRead m p) hstep
      refine ⟨hcan, ?_⟩
      rw [hcount]
      simp [acquireRead]
      omega

/-- Witness for C9 at a concrete state: page 0 held by a writer with no
readers, page 1 free. -/
theorem rwlock_page_exclusion_w :
    canAcquireRead ((fun q => if q = 0 then LockState.mk 0 true else LockState.mk 0 false) 0)
      = false ∧
    acquireRead (fun q => if q = 0 then LockState.mk 0 true else LockState.mk 0 false) 0 1
      = (fun q => if q = 0 then LockState.mk 0 true else LockState.mk 0 false) 1 ∧
    canAcquireRead
      (((fun s => acquireRead s 1)^[3]
          (fun q => if q = 0 then LockState.mk 0 true else LockState.mk 0 false)) 1)
      = true :=
  ⟨(rwlock_page_exclusion.1
      (fun q => if q = 0 then LockState.mk 0 true else LockState.mk 0 false) 0 rfl).1,
    (rwlock_page_exclusion.2.2.1
      (fun q => if q = 0 then LockState.mk 0 true else LockState.mk 0 false) 0 1
      (by norm_num)).1,
    (rwlock_page_exclusion.2.2.2
      (fun q => if q = 0 then LockState.mk 0 true else LockState.mk 0 false) 1 3 rfl).1⟩

end Db
